import Mathlib

/- Verification development for the statsd protocol-unit parser
   (src/statsd.rs, `StatsdPDU`).  Byte buffers are modelled as `List Nat`;
   the byte values that matter are 58 = colon, 124 = vertical bar,
   64 = at-sign, 35 = hash.  Each definition mirrors the corresponding
   Rust item; the two scan loops of `StatsdPDU::new` are written with an
   explicit fuel argument (the loops terminate because the scan index
   strictly increases, so any fuel larger than the buffer length is
   sufficient; `StatsdPDU.new` passes such a fuel). -/

/-- Index of the first occurrence of byte `b` in `l` (the `memchr` crate
primitive used by the parser). -/
def memchr (b : Nat) : List Nat → Option Nat
  | [] => none
  | x :: xs => if x = b then some 0 else (memchr b xs).map (fun i => i + 1)

/-- Byte list of a string literal (ASCII code points), used to write
concrete test inputs readably. -/
def strBytes (s : String) : List Nat := s.data.map Char.toNat

/-- The half-open sub-subSlice `l[a..b]` of a byte buffer, as Rust range
indexing produces (total here; validity of the bounds is proved
separately where the source relies on it). -/
def subSlice (l : List Nat) (a b : Nat) : List Nat := (l.drop a).take (b - a)

/-- The `StatsdPDU` struct: the owned buffer plus the recorded field
offsets (src/statsd.rs lines 10-17). -/
structure StatsdPDU where
  underlying : List Nat
  value_index : Nat
  type_index : Nat
  type_index_end : Nat
  sample_rate_index : Option (Nat × Nat)
  tags_index : Option (Nat × Nat)
  deriving DecidableEq, Repr

/-- Accessor `StatsdPDU::name`: `&underlying[0..value_index - 1]`. -/
def StatsdPDU.name (p : StatsdPDU) : List Nat :=
  subSlice p.underlying 0 (p.value_index - 1)

/-- Accessor `StatsdPDU::value`: `&underlying[value_index..type_index - 1]`. -/
def StatsdPDU.value (p : StatsdPDU) : List Nat :=
  subSlice p.underlying p.value_index (p.type_index - 1)

/-- Accessor `StatsdPDU::pdu_type`: `&underlying[type_index..type_index_end]`. -/
def StatsdPDU.pdu_type (p : StatsdPDU) : List Nat :=
  subSlice p.underlying p.type_index p.type_index_end

/-- Accessor `StatsdPDU::tags`: the optional tags range looked up in the buffer. -/
def StatsdPDU.tags (p : StatsdPDU) : Option (List Nat) :=
  p.tags_index.map (fun q => subSlice p.underlying q.1 q.2)

/-- Accessor `StatsdPDU::sample_rate`: the optional sample-rate range looked up in
the buffer. -/
def StatsdPDU.sample_rate (p : StatsdPDU) : Option (List Nat) :=
  p.sample_rate_index.map (fun q => subSlice p.underlying q.1 q.2)

/-- Accessor `StatsdPDU::len`: length of the underlying buffer. -/
def StatsdPDU.len (p : StatsdPDU) : Nat := p.underlying.length

/-- Accessor `StatsdPDU::as_ref`: the raw underlying buffer. -/
def StatsdPDU.as_ref (p : StatsdPDU) : List Nat := p.underlying

/-- Rewrite `StatsdPDU::with_prefix_suffix` (src/statsd.rs lines 51-70): rebuild
the buffer as prefix ++ name ++ suffix ++ rest-from-the-value-colon and
shift every recorded offset by the added length. -/
def StatsdPDU.with_prefix_suffix (p : StatsdPDU) (pre suf : List Nat) : StatsdPDU :=
  let offset := suf.length + pre.length
  { underlying := pre ++ p.name ++ suf ++ p.underlying.drop (p.value_index - 1)
    value_index := p.value_index + offset
    type_index := p.type_index + offset
    type_index_end := p.type_index_end + offset
    sample_rate_index := p.sample_rate_index.map (fun q => (q.1 + offset, q.2 + offset))
    tags_index := p.tags_index.map (fun q => (q.1 + offset, q.2 + offset)) }

/-- The first loop of `StatsdPDU::new` (src/statsd.rs lines 84-92): walk
the colons strictly before `tIdx` so that the final `value_index` is one
past the last colon; fail if no colon was found at all.  Fuel bounds the
iteration count (each step moves `vIdx` forward by at least one, so any
fuel exceeding `tIdx - vIdx` is never exhausted). -/
def valueGo (line : List Nat) (tIdx : Nat) : Nat → Nat → Option Nat
  | 0, _ => none
  | fuel + 1, vIdx =>
    match memchr 58 ((line.drop vIdx).take (tIdx - vIdx)) with
    | none => if vIdx = 0 then none else some vIdx
    | some i => valueGo line tIdx fuel (i + vIdx + 1)

/-- The second loop of `StatsdPDU::new` (src/statsd.rs lines 97-124):
scan `|` occurrences from `scanIdx`, stopping when none remains or when
fewer than two bytes follow the bar; record the provisional
`type_index_end`, then dispatch on the kind byte after the bar
(64 = sample rate, 35 = tags), rejecting duplicates and unknown kinds.
Fuel bounds the iteration count (the scan index strictly increases). -/
def markerGo (line : List Nat) :
    Nat → Nat → Nat → Option (Nat × Nat) → Option (Nat × Nat) →
    Option (Nat × Option (Nat × Nat) × Option (Nat × Nat))
  | 0, _, _, _, _ => none
  | fuel + 1, scanIdx, tie, sri, tgi =>
    match (memchr 124 (line.drop scanIdx)).map (fun i => i + scanIdx) with
    | none => some (tie, sri, tgi)
    | some x =>
      if line.length ≤ x + 2 then some (tie, sri, tgi)
      else
        let tie1 := if x < tie then x else tie
        if line.getD (x + 1) 0 = 64 then
          if sri.isSome then none
          else markerGo line fuel (x + 1) tie1 (some (x + 2, line.length))
            (tgi.map (fun q => (q.1, x)))
        else if line.getD (x + 1) 0 = 35 then
          if tgi.isSome then none
          else markerGo line fuel (x + 1) tie1 (sri.map (fun q => (q.1, x)))
            (some (x + 2, line.length))
        else none

/-- The sequence of bar positions the marker loop dispatches on: every
`|` at or after `scanIdx` that still has at least two bytes after it
(the loop breaks at the first bar closer to the end, and all later bars
are closer still). -/
def markerList (line : List Nat) : Nat → Nat → List Nat
  | 0, _ => []
  | fuel + 1, scanIdx =>
    match (memchr 124 (line.drop scanIdx)).map (fun i => i + scanIdx) with
    | none => []
    | some x =>
      if line.length ≤ x + 2 then [] else x :: markerList line fuel (x + 1)

/-- The kind byte of the marker whose `|` sits at position `x`. -/
def kindOf (line : List Nat) (x : Nat) : Nat := line.getD (x + 1) 0

/-- How many of the scanned markers in `ms` carry the sample-rate kind
byte 64. -/
def atCount (line : List Nat) (ms : List Nat) : Nat :=
  ms.countP (fun x => decide (kindOf line x = 64))

/-- How many of the scanned markers in `ms` carry the tags kind byte 35. -/
def hashCount (line : List Nat) (ms : List Nat) : Nat :=
  ms.countP (fun x => decide (kindOf line x = 35))

/-- The marker loop body re-expressed as a fold over the list of scanned
bar positions (related to `markerGo` by `markerGo_eq_processM`). -/
def processM (line : List Nat) :
    List Nat → Nat → Option (Nat × Nat) → Option (Nat × Nat) →
    Option (Nat × Option (Nat × Nat) × Option (Nat × Nat))
  | [], tie, sri, tgi => some (tie, sri, tgi)
  | x :: rest, tie, sri, tgi =>
    let tie1 := if x < tie then x else tie
    if line.getD (x + 1) 0 = 64 then
      if sri.isSome then none
      else processM line rest tie1 (some (x + 2, line.length))
        (tgi.map (fun q => (q.1, x)))
    else if line.getD (x + 1) 0 = 35 then
      if tgi.isSome then none
      else processM line rest tie1 (sri.map (fun q => (q.1, x)))
        (some (x + 2, line.length))
    else none

/-- Constructor `StatsdPDU::new` (src/statsd.rs lines 76-133): locate the first `|`,
walk the colons before it, scan the optional markers, and package the
offsets; `none` models the Rust `None` parse failure. -/
def StatsdPDU.new (line : List Nat) : Option StatsdPDU :=
  match memchr 124 line with
  | none => none
  | some p =>
    match valueGo line (p + 1) (p + 2) 0 with
    | none => none
    | some v =>
      match markerGo line (line.length + 1) (p + 1) line.length none none with
      | none => none
      | some (tie, sri, tgi) =>
        some { underlying := line, value_index := v, type_index := p + 1
               type_index_end := tie, sample_rate_index := sri, tags_index := tgi }

/-- A stored optional range is a valid Rust subSlice range for the buffer. -/
def rangeOk (len : Nat) : Option (Nat × Nat) → Bool
  | none => true
  | some (s, e) => decide (s ≤ e) && decide (e ≤ len)

/-- All five accessors perform only in-bounds range lookups: every subSlice
`underlying[a..b]` they take satisfies `a ≤ b ≤ length`. -/
def accessorsSafe (p : StatsdPDU) : Prop :=
  p.value_index - 1 ≤ p.underlying.length ∧
  p.value_index ≤ p.type_index - 1 ∧
  p.type_index - 1 ≤ p.underlying.length ∧
  p.type_index ≤ p.type_index_end ∧
  p.type_index_end ≤ p.underlying.length ∧
  rangeOk p.underlying.length p.sample_rate_index = true ∧
  rangeOk p.underlying.length p.tags_index = true

instance (p : StatsdPDU) : Decidable (accessorsSafe p) := by
  unfold accessorsSafe; infer_instance

/- ------------------------------------------------------------------ -/
/- Basic list and memchr lemmas                                       -/
/- ------------------------------------------------------------------ -/

theorem getD_append_lt (xs ys : List Nat) (n : Nat) (h : n < xs.length) :
    (xs ++ ys).getD n 0 = xs.getD n 0 := by
  induction xs generalizing n with
  | nil => simp at h
  | cons x xs ih =>
    cases n with
    | zero => simp
    | succ n =>
      simp only [List.cons_append, List.getD_cons_succ]
      exact ih n (by simpa using Nat.lt_of_succ_lt_succ h)

theorem getD_append_ge (xs ys : List Nat) (n : Nat) (h : xs.length ≤ n) :
    (xs ++ ys).getD n 0 = ys.getD (n - xs.length) 0 := by
  induction xs generalizing n with
  | nil => simp
  | cons x xs ih =>
    cases n with
    | zero => simp at h
    | succ n =>
      simp only [List.cons_append, List.getD_cons_succ, List.length_cons]
      rw [ih n (by simpa using Nat.le_of_succ_le_succ h)]
      congr 1
      omega

theorem getD_drop (l : List Nat) (a j : Nat) :
    (l.drop a).getD j 0 = l.getD (a + j) 0 := by
  induction a generalizing l with
  | zero => simp
  | succ a ih =>
    cases l with
    | nil => simp
    | cons x xs =>
      simp only [List.drop_succ_cons]
      rw [ih xs]
      have : a.succ + j = (a + j) + 1 := by omega
      rw [this, List.getD_cons_succ]

theorem getD_take (l : List Nat) (b j : Nat) (h : j < b) :
    (l.take b).getD j 0 = l.getD j 0 := by
  induction l generalizing b j with
  | nil => simp
  | cons x xs ih =>
    cases b with
    | zero => omega
    | succ b =>
      cases j with
      | zero => simp
      | succ j =>
        simp only [List.take_succ_cons, List.getD_cons_succ]
        exact ih b j (by omega)

theorem getD_mem_of_lt (l : List Nat) (n : Nat) (h : n < l.length) :
    l.getD n 0 ∈ l := by
  induction l generalizing n with
  | nil => simp at h
  | cons x xs ih =>
    cases n with
    | zero => simp
    | succ n =>
      simp only [List.getD_cons_succ]
      exact List.mem_cons_of_mem x (ih n (by simpa using Nat.lt_of_succ_lt_succ h))

theorem getD_of_length_le (l : List Nat) (n : Nat) (h : l.length ≤ n) :
    l.getD n 0 = 0 := by
  induction l generalizing n with
  | nil => simp
  | cons x xs ih =>
    cases n with
    | zero => simp at h
    | succ n => simpa using ih n (by simpa using Nat.le_of_succ_le_succ h)

theorem memchr_eq_none_iff (b : Nat) (l : List Nat) : memchr b l = none ↔ b ∉ l := by
  induction l with
  | nil => simp [memchr]
  | cons x xs ih =>
    by_cases h : x = b
    · subst h; simp [memchr]
    · simp [memchr, h, Option.map_eq_none', ih, Ne.symm h]

theorem memchr_some_spec (b : Nat) (l : List Nat) (i : Nat) (h : memchr b l = some i) :
    i < l.length ∧ l.getD i 0 = b ∧ ∀ j, j < i → l.getD j 0 ≠ b := by
  induction l generalizing i with
  | nil => simp [memchr] at h
  | cons x xs ih =>
    by_cases hx : x = b
    · subst hx
      simp [memchr] at h
      subst h
      exact ⟨by simp, by simp, by omega⟩
    · simp [memchr, hx] at h
      obtain ⟨a, ha, rfl⟩ := h
      obtain ⟨h1, h2, h3⟩ := ih a ha
      refine ⟨by simpa using h1, by simpa using h2, ?_⟩
      intro j hj
      cases j with
      | zero => simpa using hx
      | succ j =>
        simp only [List.getD_cons_succ]
        exact h3 j (by omega)

theorem memchr_append_of_not_mem (b : Nat) (xs ys : List Nat) (h : b ∉ xs) :
    memchr b (xs ++ ys) = (memchr b ys).map (fun i => i + xs.length) := by
  induction xs with
  | nil =>
    cases hm : memchr b ys <;> simp [hm]
  | cons x xs ih =>
    have hx : ¬x = b := fun hc => h (by simp [hc])
    have h2 : b ∉ xs := fun hc => h (List.mem_cons_of_mem x hc)
    simp only [List.cons_append, memchr, hx, if_false, List.append_eq]
    rw [ih h2]
    cases hm : memchr b ys
    · rfl
    · simp only [Option.map_some', List.length_cons, Option.some.injEq]
      omega

theorem subSlice_zero (l : List Nat) (b : Nat) : subSlice l 0 b = l.take b := by
  simp [subSlice]

theorem take_append_subSlice (l : List Nat) (a b : Nat) (h : a ≤ b) :
    l.take a ++ subSlice l a b = l.take b := by
  unfold subSlice
  rw [show b = a + (b - a) by omega, List.take_add]
  simp

theorem subSlice_singleton (l : List Nat) (a : Nat) (h : a < l.length) :
    subSlice l a (a + 1) = [l.getD a 0] := by
  unfold subSlice
  have h1 : a + 1 - a = 1 := by omega
  rw [h1]
  cases hd : l.drop a with
  | nil =>
    have : (l.drop a).length = 0 := by rw [hd]; rfl
    simp [List.length_drop] at this
    omega
  | cons y ys =>
    have hy : (l.drop a).getD 0 0 = y := by rw [hd]; rfl
    rw [getD_drop] at hy
    simp only [List.take_succ_cons, List.take_zero]
    rw [← hy]
    simp

theorem drop_append_len (xs ys : List Nat) (k : Nat) :
    (xs ++ ys).drop (xs.length + k) = ys.drop k := by
  rw [← List.drop_drop, List.drop_left]

theorem mem_take_of_getD (l : List Nat) (j b c : Nat) (hj : j < b)
    (hl : j < l.length) (hc : l.getD j 0 = c) : c ∈ l.take b := by
  have h1 : (l.take b).getD j 0 = c := by rw [getD_take l b j hj]; exact hc
  have h2 : j < (l.take b).length := by
    simp [List.length_take]
    omega
  exact h1 ▸ getD_mem_of_lt _ j h2

theorem getD_ne_of_not_mem_subSlice (l : List Nat) (a b j c : Nat) (hc : c ≠ 0)
    (h : c ∉ subSlice l a b) (ha : a ≤ j) (hb : j < b) : l.getD j 0 ≠ c := by
  intro hj
  by_cases hlen : j < l.length
  · apply h
    have h1 : (subSlice l a b).getD (j - a) 0 = c := by
      unfold subSlice
      rw [getD_take _ _ _ (by omega), getD_drop, show a + (j - a) = j by omega]
      exact hj
    have h2 : j - a < (subSlice l a b).length := by
      unfold subSlice
      simp [List.length_take, List.length_drop]
      omega
    exact h1 ▸ getD_mem_of_lt _ _ h2
  · rw [getD_of_length_le l j (by omega)] at hj
    exact hc hj.symm

/- ------------------------------------------------------------------ -/
/- The value-separator walk                                           -/
/- ------------------------------------------------------------------ -/

theorem valueGo_isSome_of_pos (line : List Nat) (tIdx : Nat) :
    ∀ fuel vIdx, tIdx - vIdx < fuel → 0 < vIdx →
      (valueGo line tIdx fuel vIdx).isSome = true := by
  intro fuel
  induction fuel with
  | zero => intro vIdx h _; omega
  | succ fuel ih =>
    intro vIdx h hpos
    cases hm : memchr 58 ((line.drop vIdx).take (tIdx - vIdx)) with
    | none =>
      simp [valueGo, hm, Nat.pos_iff_ne_zero.mp hpos]
    | some i =>
      have hi : i < tIdx - vIdx := by
        have h1 := (memchr_some_spec _ _ _ hm).1
        have h2 : ((line.drop vIdx).take (tIdx - vIdx)).length ≤ tIdx - vIdx := by
          simp [List.length_take]
        omega
      simp only [valueGo, hm]
      exact ih (i + vIdx + 1) (by omega) (by omega)

theorem valueGo_none_iff (line : List Nat) (tIdx fuel : Nat) (hf : tIdx < fuel) :
    valueGo line tIdx fuel 0 = none ↔ memchr 58 (line.take tIdx) = none := by
  cases fuel with
  | zero => omega
  | succ fuel =>
    have heq : (line.drop 0).take (tIdx - 0) = line.take tIdx := by simp
    cases hm : memchr 58 (line.take tIdx) with
    | none =>
      simp [valueGo, heq, hm]
    | some i =>
      have hi : i < tIdx := by
        have h1 := (memchr_some_spec _ _ _ hm).1
        have h2 : (line.take tIdx).length ≤ tIdx := by simp [List.length_take]
        omega
      simp only [valueGo, heq, hm]
      have := valueGo_isSome_of_pos line tIdx fuel (i + 0 + 1) (by omega) (by omega)
      constructor
      · intro hc; rw [hc] at this; simp at this
      · intro hc; simp at hc

theorem valueGo_some_spec (line : List Nat) (tIdx : Nat) :
    ∀ fuel vIdx v, tIdx - vIdx < fuel →
      valueGo line tIdx fuel vIdx = some v →
      (∀ j, v ≤ j → j < tIdx → line.getD j 0 ≠ 58) ∧
      ((v = vIdx ∧ vIdx ≠ 0) ∨
        (vIdx < v ∧ v ≤ tIdx ∧ line.getD (v - 1) 0 = 58)) := by
  intro fuel
  induction fuel with
  | zero => intro vIdx v h _; omega
  | succ fuel ih =>
    intro vIdx v hf h
    cases hm : memchr 58 ((line.drop vIdx).take (tIdx - vIdx)) with
    | none =>
      simp only [valueGo, hm] at h
      by_cases hz : vIdx = 0
      · simp [hz] at h
      · simp [hz] at h
        subst h
        refine ⟨?_, Or.inl ⟨rfl, hz⟩⟩
        intro j hj1 hj2
        exact getD_ne_of_not_mem_subSlice line vIdx tIdx j 58 (by omega)
          ((memchr_eq_none_iff _ _).mp hm) hj1 hj2
    | some i =>
      have hspec := memchr_some_spec _ _ _ hm
      have hi : i < tIdx - vIdx := by
        have h2 : ((line.drop vIdx).take (tIdx - vIdx)).length ≤ tIdx - vIdx := by
          simp [List.length_take]
        omega
      have hcolon : line.getD (vIdx + i) 0 = 58 := by
        have := hspec.2.1
        rwa [getD_take _ _ _ hi, getD_drop] at this
      simp only [valueGo, hm] at h
      obtain ⟨hno, hdisj⟩ := ih (i + vIdx + 1) v (by omega) h
      refine ⟨hno, Or.inr ?_⟩
      rcases hdisj with ⟨rfl, _⟩ | ⟨h1, h2, h3⟩
      · exact ⟨by omega, by omega, by
          have : i + vIdx + 1 - 1 = vIdx + i := by omega
          rw [this]; exact hcolon⟩
      · exact ⟨by omega, h2, h3⟩

/- ------------------------------------------------------------------ -/
/- The marker scan                                                    -/
/- ------------------------------------------------------------------ -/

theorem markerList_mem (line : List Nat) :
    ∀ fuel s x, x ∈ markerList line fuel s →
      s ≤ x ∧ line.getD x 0 = 124 ∧ x + 2 < line.length := by
  intro fuel
  induction fuel with
  | zero => intro s x hx; simp [markerList] at hx
  | succ fuel ih =>
    intro s x hx
    cases hm : memchr 124 (line.drop s) with
    | none => simp [markerList, hm] at hx
    | some i =>
      simp only [markerList, hm, Option.map_some'] at hx
      by_cases hlen : line.length ≤ i + s + 2
      · simp [hlen] at hx
      · simp only [if_neg hlen, List.mem_cons] at hx
        have hbar : line.getD (s + i) 0 = 124 := by
          have := (memchr_some_spec _ _ _ hm).2.1
          rwa [getD_drop] at this
        rcases hx with rfl | hx
        · exact ⟨by omega, by rwa [show i + s = s + i by omega], by omega⟩
        · obtain ⟨h1, h2, h3⟩ := ih (i + s + 1) x hx
          exact ⟨by omega, h2, h3⟩

theorem markerList_chain (line : List Nat) :
    ∀ fuel s, List.Chain' (fun a b => a < b) (markerList line fuel s) := by
  intro fuel
  induction fuel with
  | zero => intro s; simp [markerList]
  | succ fuel ih =>
    intro s
    cases hm : memchr 124 (line.drop s) with
    | none => simp [markerList, hm]
    | some i =>
      simp only [markerList, hm, Option.map_some']
      by_cases hlen : line.length ≤ i + s + 2
      · simp [hlen]
      · simp only [if_neg hlen]
        apply List.Chain'.cons'
        · exact ih (i + s + 1)
        · intro y hy
          have := markerList_mem line fuel (i + s + 1) y (List.mem_of_mem_head? hy)
          omega

theorem markerGo_eq_processM (line : List Nat) :
    ∀ fuel s tie sri tgi, line.length - s < fuel →
      markerGo line fuel s tie sri tgi =
        processM line (markerList line fuel s) tie sri tgi := by
  intro fuel
  induction fuel with
  | zero => intro s tie sri tgi h; omega
  | succ fuel ih =>
    intro s tie sri tgi hf
    cases hm : memchr 124 (line.drop s) with
    | none => simp [markerGo, markerList, hm, processM]
    | some i =>
      have hi : i < line.length - s := by
        have h1 := (memchr_some_spec _ _ _ hm).1
        have h2 : (line.drop s).length = line.length - s := by simp
        omega
      by_cases hlen : line.length ≤ i + s + 2
      · simp [markerGo, markerList, hm, hlen, processM]
      · simp only [markerGo, markerList, hm, Option.map_some', if_neg hlen, processM]
        split
        · split
          · rfl
          · exact ih (i + s + 1) _ _ _ (by omega)
        · split
          · split
            · rfl
            · exact ih (i + s + 1) _ _ _ (by omega)
          · rfl

/- ------------------------------------------------------------------ -/
/- processM: step equations and characterizations                     -/
/- ------------------------------------------------------------------ -/

theorem processM_nil (line : List Nat) (tie : Nat) (sri tgi : Option (Nat × Nat)) :
    processM line [] tie sri tgi = some (tie, sri, tgi) := rfl

theorem processM_cons (line : List Nat) (x : Nat) (rest : List Nat) (tie : Nat)
    (sri tgi : Option (Nat × Nat)) :
    processM line (x :: rest) tie sri tgi =
      if kindOf line x = 64 then
        if sri.isSome then none
        else processM line rest (if x < tie then x else tie)
          (some (x + 2, line.length)) (tgi.map (fun q => (q.1, x)))
      else if kindOf line x = 35 then
        if tgi.isSome then none
        else processM line rest (if x < tie then x else tie)
          (sri.map (fun q => (q.1, x))) (some (x + 2, line.length))
      else none := rfl

theorem atCount_cons (line : List Nat) (x : Nat) (ms : List Nat) :
    atCount line (x :: ms) = atCount line ms + if kindOf line x = 64 then 1 else 0 := by
  unfold atCount
  rw [List.countP_cons]
  by_cases h : kindOf line x = 64 <;> simp [h]

theorem hashCount_cons (line : List Nat) (x : Nat) (ms : List Nat) :
    hashCount line (x :: ms) = hashCount line ms + if kindOf line x = 35 then 1 else 0 := by
  unfold hashCount
  rw [List.countP_cons]
  by_cases h : kindOf line x = 35 <;> simp [h]

theorem isSome_map_pair (f : Nat × Nat → Nat × Nat) (o : Option (Nat × Nat)) :
    (o.map f).isSome = o.isSome := by
  cases o <;> rfl

theorem exists_bad_cons_iff (line : List Nat) (x : Nat) (rest : List Nat)
    (hx : kindOf line x = 64 ∨ kindOf line x = 35) :
    (∃ y ∈ x :: rest, kindOf line y ≠ 64 ∧ kindOf line y ≠ 35) ↔
      ∃ y ∈ rest, kindOf line y ≠ 64 ∧ kindOf line y ≠ 35 := by
  constructor
  · rintro ⟨y, hy, h1, h2⟩
    rcases List.mem_cons.mp hy with rfl | hy2
    · rcases hx with hx | hx
      · exact absurd hx h1
      · exact absurd hx h2
    · exact ⟨y, hy2, h1, h2⟩
  · rintro ⟨y, hy, h⟩
    exact ⟨y, List.mem_cons_of_mem x hy, h⟩

theorem if_isSome_some (a : Nat × Nat) :
    (if (some a : Option (Nat × Nat)).isSome then 1 else 0) = 1 := rfl

theorem processM_none_iff (line : List Nat) :
    ∀ ms tie sri tgi,
      processM line ms tie sri tgi = none ↔
        (∃ x ∈ ms, kindOf line x ≠ 64 ∧ kindOf line x ≠ 35) ∨
        2 ≤ atCount line ms + (if sri.isSome then 1 else 0) ∨
        2 ≤ hashCount line ms + (if tgi.isSome then 1 else 0) := by
  intro ms
  induction ms with
  | nil =>
    intro tie sri tgi
    rw [processM_nil]
    have h1 : (if sri.isSome then 1 else 0) ≤ 1 := by split <;> omega
    have h2 : (if tgi.isSome then 1 else 0) ≤ 1 := by split <;> omega
    constructor
    · intro h; exact absurd h (by simp)
    · rintro (⟨y, hy, _⟩ | h | h)
      · simp at hy
      · unfold atCount at h; simp at h; omega
      · unfold hashCount at h; simp at h; omega
  | cons x rest ih =>
    intro tie sri tgi
    rw [processM_cons, atCount_cons, hashCount_cons]
    by_cases h64 : kindOf line x = 64
    · have h35 : ¬kindOf line x = 35 := by rw [h64]; decide
      rw [if_pos h64, if_pos h64, if_neg h35,
        exists_bad_cons_iff line x rest (Or.inl h64)]
      by_cases hs : sri.isSome = true
      · rw [if_pos hs, if_pos hs]
        constructor
        · intro _; right; left; omega
        · intro _; rfl
      · rw [if_neg hs, if_neg hs, ih, isSome_map_pair, if_isSome_some]
        simp only [Nat.add_zero]
    · rw [if_neg h64, if_neg h64]
      by_cases h35 : kindOf line x = 35
      · rw [if_pos h35, if_pos h35,
          exists_bad_cons_iff line x rest (Or.inr h35)]
        by_cases ht : tgi.isSome = true
        · rw [if_pos ht, if_pos ht]
          constructor
          · intro _; right; right; omega
          · intro _; rfl
        · rw [if_neg ht, if_neg ht, ih, isSome_map_pair, if_isSome_some]
          simp only [Nat.add_zero]
      · rw [if_neg h35, if_neg h35]
        constructor
        · intro _
          left
          exact ⟨x, List.mem_cons_self x rest, h64, h35⟩
        · intro _; rfl

theorem processM_cons_both_some (line : List Nat) (z : Nat) (rest : List Nat)
    (tie : Nat) (a b : Nat × Nat) :
    processM line (z :: rest) tie (some a) (some b) = none := by
  rw [processM_cons]
  by_cases h64 : kindOf line z = 64
  · rw [if_pos h64]; rfl
  · rw [if_neg h64]
    by_cases h35 : kindOf line z = 35
    · rw [if_pos h35]; rfl
    · rw [if_neg h35]

theorem processM_shape (line : List Nat) (ms : List Nat) (tie : Nat)
    (r : Nat × Option (Nat × Nat) × Option (Nat × Nat))
    (hc : List.Chain' (fun a b => a < b) ms)
    (h : processM line ms tie none none = some r) :
    (ms = [] ∧ r = (tie, none, none)) ∨
    (∃ x, ms = [x] ∧
      ((kindOf line x = 64 ∧
        r = (if x < tie then x else tie, some (x + 2, line.length), none)) ∨
       (kindOf line x = 35 ∧
        r = (if x < tie then x else tie, none, some (x + 2, line.length))))) ∨
    (∃ x y, ms = [x, y] ∧ x < y ∧
      ((kindOf line x = 64 ∧ kindOf line y = 35 ∧
        r = (if x < tie then x else tie, some (x + 2, y), some (y + 2, line.length))) ∨
       (kindOf line x = 35 ∧ kindOf line y = 64 ∧
        r = (if x < tie then x else tie, some (y + 2, line.length), some (x + 2, y))))) := by
  rcases ms with _ | ⟨x, rest⟩
  · left
    rw [processM_nil] at h
    exact ⟨rfl, (Option.some.inj h).symm⟩
  · rw [processM_cons] at h
    have htie1 : ∀ y, x < y → (if y < (if x < tie then x else tie) then y
        else (if x < tie then x else tie)) = (if x < tie then x else tie) := by
      intro y hy
      rw [if_neg]
      split <;> omega
    by_cases h64 : kindOf line x = 64
    · rw [if_pos h64, if_neg (by simp)] at h
      simp only [Option.map_none'] at h
      rcases rest with _ | ⟨y, rest2⟩
      · rw [processM_nil] at h
        right; left
        exact ⟨x, rfl, Or.inl ⟨h64, (Option.some.inj h).symm⟩⟩
      · have hxy : x < y := (List.chain'_cons.mp hc).1
        rw [processM_cons] at h
        by_cases k64 : kindOf line y = 64
        · rw [if_pos k64, if_pos (by simp)] at h
          exact absurd h (by simp)
        · rw [if_neg k64] at h
          by_cases k35 : kindOf line y = 35
          · rw [if_pos k35, if_neg (by simp)] at h
            simp only [Option.map_some'] at h
            rcases rest2 with _ | ⟨z, rest3⟩
            · rw [processM_nil, htie1 y hxy] at h
              right; right
              exact ⟨x, y, rfl, hxy, Or.inl ⟨h64, k35, (Option.some.inj h).symm⟩⟩
            · rw [processM_cons_both_some] at h
              exact absurd h (by simp)
          · rw [if_neg k35] at h
            exact absurd h (by simp)
    · rw [if_neg h64] at h
      by_cases h35 : kindOf line x = 35
      · rw [if_pos h35, if_neg (by simp)] at h
        simp only [Option.map_none'] at h
        rcases rest with _ | ⟨y, rest2⟩
        · rw [processM_nil] at h
          right; left
          exact ⟨x, rfl, Or.inr ⟨h35, (Option.some.inj h).symm⟩⟩
        · have hxy : x < y := (List.chain'_cons.mp hc).1
          rw [processM_cons] at h
          by_cases k35 : kindOf line y = 35
          · rw [if_neg (by rw [k35]; decide), if_pos k35, if_pos (by simp)] at h
            exact absurd h (by simp)
          · by_cases k64 : kindOf line y = 64
            · rw [if_pos k64, if_neg (by simp)] at h
              simp only [Option.map_some'] at h
              rcases rest2 with _ | ⟨z, rest3⟩
              · rw [processM_nil, htie1 y hxy] at h
                right; right
                exact ⟨x, y, rfl, hxy, Or.inr ⟨h35, k64, (Option.some.inj h).symm⟩⟩
              · rw [processM_cons_both_some] at h
                exact absurd h (by simp)
            · rw [if_neg k64, if_neg k35] at h
              exact absurd h (by simp)
      · rw [if_neg h35] at h
        exact absurd h (by simp)

/- ------------------------------------------------------------------ -/
/- Decomposing a successful parse                                     -/
/- ------------------------------------------------------------------ -/

theorem new_parts (line : List Nat) (pdu : StatsdPDU) (h : StatsdPDU.new line = some pdu) :
    ∃ p, memchr 124 line = some p ∧
      pdu.underlying = line ∧
      pdu.type_index = p + 1 ∧
      valueGo line (p + 1) (p + 2) 0 = some pdu.value_index ∧
      processM line (markerList line (line.length + 1) (p + 1)) line.length none none =
        some (pdu.type_index_end, pdu.sample_rate_index, pdu.tags_index) := by
  cases hm : memchr 124 line with
  | none => simp [StatsdPDU.new, hm] at h
  | some p =>
    cases hv : valueGo line (p + 1) (p + 2) 0 with
    | none => simp [StatsdPDU.new, hm, hv] at h
    | some v =>
      cases hg : markerGo line (line.length + 1) (p + 1) line.length none none with
      | none => simp [StatsdPDU.new, hm, hv, hg] at h
      | some r =>
        obtain ⟨tie, sri, tgi⟩ := r
        simp only [StatsdPDU.new, hm, hv, hg] at h
        rw [markerGo_eq_processM line (line.length + 1) (p + 1) line.length none none
          (by omega)] at hg
        have h2 := Option.some.inj h
        subst h2
        exact ⟨p, rfl, rfl, rfl, hv, hg⟩

theorem new_facts (line : List Nat) (pdu : StatsdPDU) (h : StatsdPDU.new line = some pdu) :
    pdu.underlying = line ∧
    0 < pdu.value_index ∧
    pdu.value_index < pdu.type_index ∧
    pdu.type_index ≤ pdu.type_index_end ∧
    pdu.type_index_end ≤ line.length ∧
    line.getD (pdu.value_index - 1) 0 = 58 ∧
    line.getD (pdu.type_index - 1) 0 = 124 ∧
    (∀ j, pdu.value_index ≤ j → j < pdu.type_index - 1 → line.getD j 0 ≠ 58) ∧
    (∀ s e, pdu.sample_rate_index = some (s, e) →
      pdu.type_index + 2 ≤ s ∧ s ≤ e ∧ e ≤ line.length) ∧
    (∀ s e, pdu.tags_index = some (s, e) →
      pdu.type_index + 2 ≤ s ∧ s ≤ e ∧ e ≤ line.length) := by
  obtain ⟨p, hm, hund, htype, hv, hproc⟩ := new_parts line pdu h
  obtain ⟨hplen, hpbar, -⟩ := memchr_some_spec 124 line p hm
  obtain ⟨hnocol, hdisj⟩ :=
    valueGo_some_spec line (p + 1) (p + 2) 0 pdu.value_index (by omega) hv
  rcases hdisj with ⟨-, habs⟩ | ⟨hv0, hvle, hvcol⟩
  · omega
  have hvne : pdu.value_index ≠ p + 1 := by
    intro hc
    rw [hc, Nat.add_sub_cancel] at hvcol
    rw [hvcol] at hpbar
    omega
  have hpb : line.getD (pdu.type_index - 1) 0 = 124 := by
    rw [htype, Nat.add_sub_cancel]
    exact hpbar
  have hnc : ∀ j, pdu.value_index ≤ j → j < pdu.type_index - 1 → line.getD j 0 ≠ 58 := by
    intro j hj1 hj2
    rw [htype] at hj2
    exact hnocol j hj1 (by omega)
  have hshape := processM_shape line (markerList line (line.length + 1) (p + 1))
    line.length _ (markerList_chain line _ _) hproc
  have hmem := markerList_mem line (line.length + 1) (p + 1)
  rcases hshape with ⟨hms, hr⟩ | ⟨x, hms, hx⟩ | ⟨x, y, hms, hxy, hx⟩
  · simp only [Prod.mk.injEq] at hr
    obtain ⟨h1, h2, h3⟩ := hr
    refine ⟨hund, by omega, by omega, by omega, by omega, hvcol, hpb, hnc, ?_, ?_⟩
    · intro s e hse; rw [h2] at hse; exact absurd hse (by simp)
    · intro s e hse; rw [h3] at hse; exact absurd hse (by simp)
  · obtain ⟨hx1, hx2, hx3⟩ := hmem x (hms ▸ List.mem_cons_self x [])
    have hxt : (if x < line.length then x else line.length) = x := if_pos (by omega)
    rcases hx with ⟨hk, hr⟩ | ⟨hk, hr⟩
    · rw [hxt] at hr
      simp only [Prod.mk.injEq] at hr
      obtain ⟨h1, h2, h3⟩ := hr
      refine ⟨hund, by omega, by omega, by omega, by omega, hvcol, hpb, hnc, ?_, ?_⟩
      · intro s e hse
        rw [h2] at hse
        simp only [Option.some.injEq, Prod.mk.injEq] at hse
        obtain ⟨rfl, rfl⟩ := hse
        omega
      · intro s e hse; rw [h3] at hse; exact absurd hse (by simp)
    · rw [hxt] at hr
      simp only [Prod.mk.injEq] at hr
      obtain ⟨h1, h2, h3⟩ := hr
      refine ⟨hund, by omega, by omega, by omega, by omega, hvcol, hpb, hnc, ?_, ?_⟩
      · intro s e hse; rw [h2] at hse; exact absurd hse (by simp)
      · intro s e hse
        rw [h3] at hse
        simp only [Option.some.injEq, Prod.mk.injEq] at hse
        obtain ⟨rfl, rfl⟩ := hse
        omega
  · obtain ⟨hx1, hx2, hx3⟩ := hmem x (hms ▸ List.mem_cons_self x [y])
    obtain ⟨hy1, hy2, hy3⟩ := hmem y (hms ▸ List.mem_cons_of_mem x (List.mem_cons_self y []))
    have hxt : (if x < line.length then x else line.length) = x := if_pos (by omega)
    have hyx2 : x + 2 ≤ y := by
      rcases Nat.lt_or_ge y (x + 2) with hlt | hge
      · have hyeq : x + 1 = y := by omega
        rcases hx with ⟨hk, -⟩ | ⟨hk, -⟩ <;>
          · unfold kindOf at hk
            rw [hyeq] at hk
            rw [hk] at hy2
            omega
      · exact hge
    rcases hx with ⟨hk, hk2, hr⟩ | ⟨hk, hk2, hr⟩
    · rw [hxt] at hr
      simp only [Prod.mk.injEq] at hr
      obtain ⟨h1, h2, h3⟩ := hr
      refine ⟨hund, by omega, by omega, by omega, by omega, hvcol, hpb, hnc, ?_, ?_⟩
      · intro s e hse
        rw [h2] at hse
        simp only [Option.some.injEq, Prod.mk.injEq] at hse
        obtain ⟨rfl, rfl⟩ := hse
        omega
      · intro s e hse
        rw [h3] at hse
        simp only [Option.some.injEq, Prod.mk.injEq] at hse
        obtain ⟨rfl, rfl⟩ := hse
        omega
    · rw [hxt] at hr
      simp only [Prod.mk.injEq] at hr
      obtain ⟨h1, h2, h3⟩ := hr
      refine ⟨hund, by omega, by omega, by omega, by omega, hvcol, hpb, hnc, ?_, ?_⟩
      · intro s e hse
        rw [h2] at hse
        simp only [Option.some.injEq, Prod.mk.injEq] at hse
        obtain ⟨rfl, rfl⟩ := hse
        omega
      · intro s e hse
        rw [h3] at hse
        simp only [Option.some.injEq, Prod.mk.injEq] at hse
        obtain ⟨rfl, rfl⟩ := hse
        omega

/- ------------------------------------------------------------------ -/
/- Shifting lemmas for with_prefix_suffix                             -/
/- ------------------------------------------------------------------ -/

theorem wps_underlying_assoc (pdu : StatsdPDU) (pre suf : List Nat) :
    (pdu.with_prefix_suffix pre suf).underlying =
      (pre ++ pdu.name ++ suf) ++ pdu.underlying.drop (pdu.value_index - 1) := by
  simp [StatsdPDU.with_prefix_suffix, List.append_assoc]

theorem name_length (line : List Nat) (pdu : StatsdPDU) (hund : pdu.underlying = line)
    (hv1 : pdu.value_index - 1 ≤ line.length) :
    pdu.name.length = pdu.value_index - 1 := by
  simp [StatsdPDU.name, subSlice, hund, List.length_take]
  omega

theorem affix_length (line : List Nat) (pdu : StatsdPDU) (pre suf : List Nat)
    (hund : pdu.underlying = line) (hv1 : pdu.value_index - 1 ≤ line.length) :
    (pre ++ pdu.name ++ suf).length =
      pdu.value_index - 1 + (suf.length + pre.length) := by
  simp [name_length line pdu hund hv1]
  omega

theorem wps_length (line : List Nat) (pdu : StatsdPDU) (pre suf : List Nat)
    (hund : pdu.underlying = line) (hv1 : pdu.value_index - 1 ≤ line.length) :
    (pdu.with_prefix_suffix pre suf).underlying.length =
      line.length + (suf.length + pre.length) := by
  rw [wps_underlying_assoc, List.length_append,
    affix_length line pdu pre suf hund hv1, hund, List.length_drop]
  omega

theorem wps_getD (line : List Nat) (pdu : StatsdPDU) (pre suf : List Nat)
    (hund : pdu.underlying = line) (hv1 : pdu.value_index - 1 ≤ line.length)
    (a : Nat) (ha : pdu.value_index - 1 ≤ a) :
    (pdu.with_prefix_suffix pre suf).underlying.getD
      (a + (suf.length + pre.length)) 0 = line.getD a 0 := by
  rw [wps_underlying_assoc,
    getD_append_ge _ _ _ (by rw [affix_length line pdu pre suf hund hv1]; omega),
    affix_length line pdu pre suf hund hv1, hund, getD_drop]
  congr 1
  omega

theorem wps_subSlice (line : List Nat) (pdu : StatsdPDU) (pre suf : List Nat)
    (hund : pdu.underlying = line) (hv1 : pdu.value_index - 1 ≤ line.length)
    (a b : Nat) (ha : pdu.value_index - 1 ≤ a) :
    subSlice (pdu.with_prefix_suffix pre suf).underlying
        (a + (suf.length + pre.length)) (b + (suf.length + pre.length)) =
      subSlice line a b := by
  unfold subSlice
  rw [wps_underlying_assoc]
  rw [show a + (suf.length + pre.length) =
      (pre ++ pdu.name ++ suf).length + (a - (pdu.value_index - 1)) by
    rw [affix_length line pdu pre suf hund hv1]; omega]
  rw [drop_append_len, hund, List.drop_drop,
    show pdu.value_index - 1 + (a - (pdu.value_index - 1)) = a by omega]
  congr 1
  rw [affix_length line pdu pre suf hund hv1]
  omega

theorem wps_name (line : List Nat) (pdu : StatsdPDU) (pre suf : List Nat)
    (hund : pdu.underlying = line) (hv0 : 0 < pdu.value_index)
    (hv1 : pdu.value_index - 1 ≤ line.length) :
    (pdu.with_prefix_suffix pre suf).name = pre ++ pdu.name ++ suf := by
  show subSlice (pdu.with_prefix_suffix pre suf).underlying 0
    ((pdu.with_prefix_suffix pre suf).value_index - 1) = pre ++ pdu.name ++ suf
  rw [subSlice_zero, wps_underlying_assoc]
  rw [show (pdu.with_prefix_suffix pre suf).value_index - 1 =
      (pre ++ pdu.name ++ suf).length by
    show pdu.value_index + (suf.length + pre.length) - 1 = _
    rw [affix_length line pdu pre suf hund hv1]; omega]
  exact List.take_left _ _

/- ------------------------------------------------------------------ -/
/- Claim theorems                                                     -/
/- ------------------------------------------------------------------ -/

/-- C2: for every buffer accepted by `StatsdPDU.new`, `value_index` is one
past the last colon strictly before the first bar: the byte at
`value_index - 1` is `:` (58), it lies strictly before the first `|`
position, and no colon occurs from `value_index` up to that bar, so a
name may itself contain colons; concretely, parsing "car:bar:3|c" gives
name "car:bar", value "3" and type "c". -/
theorem c2_value_index_is_last_colon :
    (∀ line pdu, StatsdPDU.new line = some pdu →
      ∃ p, memchr 124 line = some p ∧
        0 < pdu.value_index ∧ pdu.value_index - 1 < p ∧
        line.getD (pdu.value_index - 1) 0 = 58 ∧
        (∀ j, pdu.value_index ≤ j → j < p → line.getD j 0 ≠ 58)) ∧
    ∃ pdu, StatsdPDU.new (strBytes "car:bar:3|c") = some pdu ∧
      pdu.name = strBytes "car:bar" ∧ pdu.value = strBytes "3" ∧
      pdu.pdu_type = strBytes "c" := by
  constructor
  · intro line pdu h
    obtain ⟨p, hm, -, htype, -, -⟩ := new_parts line pdu h
    obtain ⟨-, hv0, hvlt, -, -, hvcol, -, hnc, -, -⟩ := new_facts line pdu h
    refine ⟨p, hm, hv0, by omega, hvcol, ?_⟩
    intro j hj1 hj2
    exact hnc j hj1 (by omega)
  · exact ⟨⟨strBytes "car:bar:3|c", 8, 10, 11, none, none⟩, by rfl, by rfl, by rfl, by rfl⟩

/-- C2 witness: the general statement applied to the concrete accepted
buffer "car:bar:3|c", whose unit has `value_index = 8`: byte 7 is the
colon. -/
theorem c2_value_index_is_last_colon_witness :
    (strBytes "car:bar:3|c").getD 7 0 = 58 := by
  obtain ⟨p, hm, h0, hlt, hcol, hnc⟩ :=
    c2_value_index_is_last_colon.1 (strBytes "car:bar:3|c")
      ⟨strBytes "car:bar:3|c", 8, 10, 11, none, none⟩ (by rfl)
  exact hcol

/-- C6: every unit returned by the parser satisfies
`0 < value_index ≤ type_index - 1 ≤ type_index_end ≤ length underlying`,
the byte at `value_index - 1` is `:` and the byte at `type_index - 1` is
`|`; `with_prefix_suffix` shifts every stored offset and optional range
by `pre.length + suf.length` and the derived unit satisfies the same
invariant over its own (longer) buffer. -/
theorem c6_parse_invariants :
    ∀ line pdu, StatsdPDU.new line = some pdu →
      (0 < pdu.value_index ∧
       pdu.value_index ≤ pdu.type_index - 1 ∧
       pdu.type_index - 1 ≤ pdu.type_index_end ∧
       pdu.type_index_end ≤ pdu.underlying.length ∧
       pdu.underlying.getD (pdu.value_index - 1) 0 = 58 ∧
       pdu.underlying.getD (pdu.type_index - 1) 0 = 124) ∧
      ∀ pre suf : List Nat,
        ((pdu.with_prefix_suffix pre suf).value_index =
            pdu.value_index + (pre.length + suf.length) ∧
         (pdu.with_prefix_suffix pre suf).type_index =
            pdu.type_index + (pre.length + suf.length) ∧
         (pdu.with_prefix_suffix pre suf).type_index_end =
            pdu.type_index_end + (pre.length + suf.length) ∧
         (pdu.with_prefix_suffix pre suf).sample_rate_index =
            pdu.sample_rate_index.map (fun q =>
              (q.1 + (pre.length + suf.length), q.2 + (pre.length + suf.length))) ∧
         (pdu.with_prefix_suffix pre suf).tags_index =
            pdu.tags_index.map (fun q =>
              (q.1 + (pre.length + suf.length), q.2 + (pre.length + suf.length)))) ∧
        (0 < (pdu.with_prefix_suffix pre suf).value_index ∧
         (pdu.with_prefix_suffix pre suf).value_index ≤
            (pdu.with_prefix_suffix pre suf).type_index - 1 ∧
         (pdu.with_prefix_suffix pre suf).type_index - 1 ≤
            (pdu.with_prefix_suffix pre suf).type_index_end ∧
         (pdu.with_prefix_suffix pre suf).type_index_end ≤
            (pdu.with_prefix_suffix pre suf).underlying.length ∧
         (pdu.with_prefix_suffix pre suf).underlying.getD
            ((pdu.with_prefix_suffix pre suf).value_index - 1) 0 = 58 ∧
         (pdu.with_prefix_suffix pre suf).underlying.getD
            ((pdu.with_prefix_suffix pre suf).type_index - 1) 0 = 124) := by
  intro line pdu h
  obtain ⟨hund, hv0, hvt, htt, htl, hvcol, hpb, -, hsr, htg⟩ := new_facts line pdu h
  subst hund
  refine ⟨⟨hv0, by omega, by omega, htl, hvcol, hpb⟩, ?_⟩
  intro pre suf
  have hq1 : (pdu.with_prefix_suffix pre suf).value_index =
      pdu.value_index + (suf.length + pre.length) := rfl
  have hq2 : (pdu.with_prefix_suffix pre suf).type_index =
      pdu.type_index + (suf.length + pre.length) := rfl
  have hq3 : (pdu.with_prefix_suffix pre suf).type_index_end =
      pdu.type_index_end + (suf.length + pre.length) := rfl
  have hq4 : (pdu.with_prefix_suffix pre suf).sample_rate_index =
      pdu.sample_rate_index.map (fun q =>
        (q.1 + (suf.length + pre.length), q.2 + (suf.length + pre.length))) := rfl
  have hq5 : (pdu.with_prefix_suffix pre suf).tags_index =
      pdu.tags_index.map (fun q =>
        (q.1 + (suf.length + pre.length), q.2 + (suf.length + pre.length))) := rfl
  have hv1 : pdu.value_index - 1 ≤ pdu.underlying.length := by omega
  have hlen := wps_length pdu.underlying pdu pre suf rfl hv1
  constructor
  · refine ⟨by rw [hq1]; omega, by rw [hq2]; omega, by rw [hq3]; omega, ?_, ?_⟩
    · rw [hq4]
      cases pdu.sample_rate_index with
      | none => rfl
      | some q =>
        simp only [Option.map_some', Option.some.injEq, Prod.mk.injEq]
        omega
    · rw [hq5]
      cases pdu.tags_index with
      | none => rfl
      | some q =>
        simp only [Option.map_some', Option.some.injEq, Prod.mk.injEq]
        omega
  · refine ⟨by rw [hq1]; omega, by rw [hq1, hq2]; omega, by rw [hq2, hq3]; omega,
      by rw [hq3, hlen]; omega, ?_, ?_⟩
    · rw [hq1, show pdu.value_index + (suf.length + pre.length) - 1 =
        (pdu.value_index - 1) + (suf.length + pre.length) by omega,
        wps_getD pdu.underlying pdu pre suf rfl hv1 (pdu.value_index - 1) (by omega)]
      exact hvcol
    · rw [hq2, show pdu.type_index + (suf.length + pre.length) - 1 =
        (pdu.type_index - 1) + (suf.length + pre.length) by omega,
        wps_getD pdu.underlying pdu pre suf rfl hv1 (pdu.type_index - 1) (by omega)]
      exact hpb

/-- C6 witness: the invariant theorem applied to the parse of
"foo.bar:3|c|#tags|@1.0" and the rewrite with prefix "aa" and suffix
"bbb": the sample-rate range (19, 22) is shifted by 5. -/
theorem c6_parse_invariants_witness :
    ((⟨strBytes "foo.bar:3|c|#tags|@1.0", 8, 10, 11, some (19, 22), some (13, 17)⟩ :
        StatsdPDU).with_prefix_suffix (strBytes "aa") (strBytes "bbb")).sample_rate_index =
      some (24, 27) := by
  have h := ((c6_parse_invariants (strBytes "foo.bar:3|c|#tags|@1.0")
    ⟨strBytes "foo.bar:3|c|#tags|@1.0", 8, 10, 11, some (19, 22), some (13, 17)⟩
    (by rfl)).2 (strBytes "aa") (strBytes "bbb")).1.2.2.2.1
  rw [h]
  rfl

/-- C3: the rename rewrite: for every parsed unit and all byte strings
`pre` and `suf`, the derived unit's name is `pre ++ name ++ suf`, its
value, type, sample-rate and tags fields are byte-identical to the
original's (including presence or absence of the two optional fields),
and its raw buffer length is the original length plus both affix
lengths.  `with_prefix_suffix` is a pure function, so the original unit
is unchanged. -/
theorem c3_with_prefix_suffix_rewrite :
    ∀ line pdu (pre suf : List Nat), StatsdPDU.new line = some pdu →
      (pdu.with_prefix_suffix pre suf).name = pre ++ pdu.name ++ suf ∧
      (pdu.with_prefix_suffix pre suf).value = pdu.value ∧
      (pdu.with_prefix_suffix pre suf).pdu_type = pdu.pdu_type ∧
      (pdu.with_prefix_suffix pre suf).sample_rate = pdu.sample_rate ∧
      (pdu.with_prefix_suffix pre suf).tags = pdu.tags ∧
      (pdu.with_prefix_suffix pre suf).len = pdu.len + (pre.length + suf.length) := by
  intro line pdu pre suf h
  obtain ⟨hund, hv0, hvt, htt, htl, -, -, -, hsr, htg⟩ := new_facts line pdu h
  subst hund
  have hv1 : pdu.value_index - 1 ≤ pdu.underlying.length := by omega
  refine ⟨wps_name _ pdu pre suf rfl hv0 hv1, ?_, ?_, ?_, ?_, ?_⟩
  · unfold StatsdPDU.value
    have e1 : (pdu.with_prefix_suffix pre suf).value_index =
        pdu.value_index + (suf.length + pre.length) := rfl
    have e2 : (pdu.with_prefix_suffix pre suf).type_index - 1 =
        (pdu.type_index - 1) + (suf.length + pre.length) := by
      show pdu.type_index + (suf.length + pre.length) - 1 = _
      omega
    rw [e1, e2, show pdu.value_index + (suf.length + pre.length) =
      pdu.value_index + (suf.length + pre.length) from rfl]
    rw [wps_subSlice pdu.underlying pdu pre suf rfl hv1 pdu.value_index
      (pdu.type_index - 1) (by omega)]
  · unfold StatsdPDU.pdu_type
    have e1 : (pdu.with_prefix_suffix pre suf).type_index =
        pdu.type_index + (suf.length + pre.length) := rfl
    have e2 : (pdu.with_prefix_suffix pre suf).type_index_end =
        pdu.type_index_end + (suf.length + pre.length) := rfl
    rw [e1, e2, wps_subSlice pdu.underlying pdu pre suf rfl hv1 pdu.type_index
      pdu.type_index_end (by omega)]
  · unfold StatsdPDU.sample_rate
    have e4 : (pdu.with_prefix_suffix pre suf).sample_rate_index =
        pdu.sample_rate_index.map (fun q =>
          (q.1 + (suf.length + pre.length), q.2 + (suf.length + pre.length))) := rfl
    rw [e4]
    cases hs : pdu.sample_rate_index with
    | none => rfl
    | some q =>
      obtain ⟨s, e⟩ := q
      obtain ⟨h1, h2, h3⟩ := hsr s e hs
      simp only [Option.map_some', Option.some.injEq]
      exact wps_subSlice pdu.underlying pdu pre suf rfl hv1 s e (by omega)
  · unfold StatsdPDU.tags
    have e5 : (pdu.with_prefix_suffix pre suf).tags_index =
        pdu.tags_index.map (fun q =>
          (q.1 + (suf.length + pre.length), q.2 + (suf.length + pre.length))) := rfl
    rw [e5]
    cases hs : pdu.tags_index with
    | none => rfl
    | some q =>
      obtain ⟨s, e⟩ := q
      obtain ⟨h1, h2, h3⟩ := htg s e hs
      simp only [Option.map_some', Option.some.injEq]
      exact wps_subSlice pdu.underlying pdu pre suf rfl hv1 s e (by omega)
  · unfold StatsdPDU.len
    rw [wps_length pdu.underlying pdu pre suf rfl hv1]
    omega

/-- C3 witness: the rewrite theorem applied to the parse of
"foo.bar:3|c|#tags|@1.0" with prefix "aa" and suffix "bbb": the derived
name is "aafoo.barbbb". -/
theorem c3_with_prefix_suffix_rewrite_witness :
    ((⟨strBytes "foo.bar:3|c|#tags|@1.0", 8, 10, 11, some (19, 22), some (13, 17)⟩ :
        StatsdPDU).with_prefix_suffix (strBytes "aa") (strBytes "bbb")).name =
      strBytes "aafoo.barbbb" := by
  have h := c3_with_prefix_suffix_rewrite (strBytes "foo.bar:3|c|#tags|@1.0")
    ⟨strBytes "foo.bar:3|c|#tags|@1.0", 8, 10, 11, some (19, 22), some (13, 17)⟩
    (strBytes "aa") (strBytes "bbb") (by rfl)
  rw [h.1]
  rfl

/-- C7: no operation panics.  Parsing is total by construction (every
definition is a total function and the scan loops consume fuel that is
provably sufficient); every kind-byte access `line[x + 1]` taken by the
marker scan is in bounds since a scanned marker satisfies
`x + 2 < length`; and on every unit produced by `StatsdPDU.new` or
derived via `with_prefix_suffix`, all five accessors perform only
in-bounds range lookups (`start ≤ end ≤ buffer length`). -/
theorem c7_no_panics :
    ∀ line : List Nat,
      (∀ s x, x ∈ markerList line (line.length + 1) s → x + 2 < line.length) ∧
      ∀ pdu, StatsdPDU.new line = some pdu →
        accessorsSafe pdu ∧
        ∀ pre suf : List Nat, accessorsSafe (pdu.with_prefix_suffix pre suf) := by
  intro line
  constructor
  · intro s x hx
    exact (markerList_mem line (line.length + 1) s x hx).2.2
  · intro pdu h
    obtain ⟨hund, hv0, hvt, htt, htl, -, -, -, hsr, htg⟩ := new_facts line pdu h
    subst hund
    have hrok : rangeOk pdu.underlying.length pdu.sample_rate_index = true := by
      cases hs : pdu.sample_rate_index with
      | none => rfl
      | some q =>
        obtain ⟨s, e⟩ := q
        obtain ⟨h1, h2, h3⟩ := hsr s e hs
        simp only [rangeOk, Bool.and_eq_true, decide_eq_true_eq]
        exact ⟨h2, h3⟩
    have hrok2 : rangeOk pdu.underlying.length pdu.tags_index = true := by
      cases hs : pdu.tags_index with
      | none => rfl
      | some q =>
        obtain ⟨s, e⟩ := q
        obtain ⟨h1, h2, h3⟩ := htg s e hs
        simp only [rangeOk, Bool.and_eq_true, decide_eq_true_eq]
        exact ⟨h2, h3⟩
    constructor
    · exact ⟨by omega, by omega, by omega, htt, htl, hrok, hrok2⟩
    · intro pre suf
      have hv1 : pdu.value_index - 1 ≤ pdu.underlying.length := by omega
      have hq1 : (pdu.with_prefix_suffix pre suf).value_index =
          pdu.value_index + (suf.length + pre.length) := rfl
      have hq2 : (pdu.with_prefix_suffix pre suf).type_index =
          pdu.type_index + (suf.length + pre.length) := rfl
      have hq3 : (pdu.with_prefix_suffix pre suf).type_index_end =
          pdu.type_index_end + (suf.length + pre.length) := rfl
      have hq4 : (pdu.with_prefix_suffix pre suf).sample_rate_index =
          pdu.sample_rate_index.map (fun q =>
            (q.1 + (suf.length + pre.length), q.2 + (suf.length + pre.length))) := rfl
      have hq5 : (pdu.with_prefix_suffix pre suf).tags_index =
          pdu.tags_index.map (fun q =>
            (q.1 + (suf.length + pre.length), q.2 + (suf.length + pre.length))) := rfl
      have hlen := wps_length pdu.underlying pdu pre suf rfl hv1
      refine ⟨by rw [hq1, hlen]; omega, by rw [hq1, hq2]; omega,
        by rw [hq2, hlen]; omega, by rw [hq2, hq3]; omega,
        by rw [hq3, hlen]; omega, ?_, ?_⟩
      · rw [hq4, hlen]
        cases hs : pdu.sample_rate_index with
        | none => rfl
        | some q =>
          obtain ⟨s, e⟩ := q
          obtain ⟨h1, h2, h3⟩ := hsr s e hs
          simp only [Option.map_some', rangeOk, Bool.and_eq_true, decide_eq_true_eq]
          omega
      · rw [hq5, hlen]
        cases hs : pdu.tags_index with
        | none => rfl
        | some q =>
          obtain ⟨s, e⟩ := q
          obtain ⟨h1, h2, h3⟩ := htg s e hs
          simp only [Option.map_some', rangeOk, Bool.and_eq_true, decide_eq_true_eq]
          omega

/-- C7 witness: the safety theorem applied to the concrete buffer
"foo.bar:3|c|#tags|@1.0", its parsed unit, and the rewrite with
prefix "aa" and suffix "bbb". -/
theorem c7_no_panics_witness :
    accessorsSafe (⟨strBytes "foo.bar:3|c|#tags|@1.0", 8, 10, 11,
        some (19, 22), some (13, 17)⟩ : StatsdPDU) ∧
    accessorsSafe ((⟨strBytes "foo.bar:3|c|#tags|@1.0", 8, 10, 11,
        some (19, 22), some (13, 17)⟩ :
      StatsdPDU).with_prefix_suffix (strBytes "aa") (strBytes "bbb")) := by
  have h := (c7_no_panics (strBytes "foo.bar:3|c|#tags|@1.0")).2
    ⟨strBytes "foo.bar:3|c|#tags|@1.0", 8, 10, 11, some (19, 22), some (13, 17)⟩
    (by rfl)
  exact ⟨h.1, h.2 (strBytes "aa") (strBytes "bbb")⟩

/-- C8: for every buffer accepted by the parser, the concatenation
`name ++ ":" ++ value ++ "|" ++ type` reconstructs exactly the first
`type_index_end` bytes of the raw buffer. -/
theorem c8_reconstructs_prefix :
    ∀ line pdu, StatsdPDU.new line = some pdu →
      pdu.name ++ 58 :: (pdu.value ++ 124 :: pdu.pdu_type) =
        line.take pdu.type_index_end := by
  intro line pdu h
  obtain ⟨hund, hv0, hvt, htt, htl, hvcol, hpb, -, -, -⟩ := new_facts line pdu h
  subst hund
  unfold StatsdPDU.name StatsdPDU.value StatsdPDU.pdu_type
  rw [subSlice_zero]
  have hlenv : pdu.value_index - 1 < pdu.underlying.length := by omega
  have hlent : pdu.type_index - 1 < pdu.underlying.length := by omega
  have hs1 : subSlice pdu.underlying (pdu.value_index - 1) pdu.value_index = [58] := by
    have hx := subSlice_singleton pdu.underlying (pdu.value_index - 1) hlenv
    rw [show pdu.value_index - 1 + 1 = pdu.value_index by omega] at hx
    rw [hx, hvcol]
  have hs2 : subSlice pdu.underlying (pdu.type_index - 1) pdu.type_index = [124] := by
    have hx := subSlice_singleton pdu.underlying (pdu.type_index - 1) hlent
    rw [show pdu.type_index - 1 + 1 = pdu.type_index by omega] at hx
    rw [hx, hpb]
  have h1 := take_append_subSlice pdu.underlying (pdu.value_index - 1)
    pdu.value_index (by omega)
  rw [hs1] at h1
  have h2 := take_append_subSlice pdu.underlying pdu.value_index
    (pdu.type_index - 1) (by omega)
  have h3 := take_append_subSlice pdu.underlying (pdu.type_index - 1)
    pdu.type_index (by omega)
  rw [hs2] at h3
  have h4 := take_append_subSlice pdu.underlying pdu.type_index
    pdu.type_index_end htt
  rw [← h4, ← h3, ← h2, ← h1]
  simp

/-- C8 witness: the reconstruction theorem applied to the parse of
"car:bar:3|c", whose `type_index_end` is the full buffer length 11. -/
theorem c8_reconstructs_prefix_witness :
    (⟨strBytes "car:bar:3|c", 8, 10, 11, none, none⟩ : StatsdPDU).name ++
        58 :: ((⟨strBytes "car:bar:3|c", 8, 10, 11, none, none⟩ : StatsdPDU).value ++
          124 :: (⟨strBytes "car:bar:3|c", 8, 10, 11, none, none⟩ : StatsdPDU).pdu_type) =
      (strBytes "car:bar:3|c").take 11 :=
  c8_reconstructs_prefix (strBytes "car:bar:3|c")
    ⟨strBytes "car:bar:3|c", 8, 10, 11, none, none⟩ (by rfl)

/-- C5: for every parsed unit, `type_index_end` equals the position of
the earliest `|` found at or after `type_index` that is processed as a
marker boundary, i.e. that still has at least two bytes after it, and
the buffer length otherwise; a `|` with fewer than two bytes remaining
is not treated as a marker boundary — the scan breaks there and the type
field runs to the end of the buffer, absorbing the fragment. -/
theorem c5_type_index_end :
    ∀ line pdu, StatsdPDU.new line = some pdu →
      pdu.type_index_end =
        match memchr 124 (line.drop pdu.type_index) with
        | none => line.length
        | some i =>
          if pdu.type_index + i + 2 < line.length then pdu.type_index + i
          else line.length := by
  intro line pdu h
  obtain ⟨p, hm, hund, htype, hv, hproc⟩ := new_parts line pdu h
  have hshape := processM_shape line (markerList line (line.length + 1) (p + 1))
    line.length _ (markerList_chain line _ _) hproc
  rw [htype]
  cases hm2 : memchr 124 (line.drop (p + 1)) with
  | none =>
    have hml : markerList line (line.length + 1) (p + 1) = [] := by
      simp [markerList, hm2]
    rw [hml] at hshape
    rcases hshape with ⟨-, hr⟩ | ⟨x, hxx, -⟩ | ⟨x, y, hxx, -⟩
    · simp only [Prod.mk.injEq] at hr
      exact hr.1
    · simp at hxx
    · simp at hxx
  | some i =>
    show pdu.type_index_end =
      if p + 1 + i + 2 < line.length then p + 1 + i else line.length
    by_cases hlen : line.length ≤ i + (p + 1) + 2
    · have hml : markerList line (line.length + 1) (p + 1) = [] := by
        simp only [markerList, hm2, Option.map_some']
        rw [if_pos hlen]
      rw [hml] at hshape
      rw [if_neg (by omega)]
      rcases hshape with ⟨-, hr⟩ | ⟨x, hxx, -⟩ | ⟨x, y, hxx, -⟩
      · simp only [Prod.mk.injEq] at hr
        exact hr.1
      · simp at hxx
      · simp at hxx
    · have hml : markerList line (line.length + 1) (p + 1) =
          (i + (p + 1)) :: markerList line line.length (i + (p + 1) + 1) := by
        simp only [markerList, hm2, Option.map_some']
        rw [if_neg hlen]
      rw [hml] at hshape
      rw [if_pos (by omega)]
      rcases hshape with ⟨hnil, -⟩ | ⟨x, hxx, hx⟩ | ⟨x, y, hxx, hxy, hx⟩
      · simp at hnil
      · simp only [List.cons.injEq] at hxx
        obtain ⟨hxeq, -⟩ := hxx
        have hxlt : x < line.length := by omega
        rcases hx with ⟨-, hr⟩ | ⟨-, hr⟩ <;>
          · rw [if_pos hxlt] at hr
            simp only [Prod.mk.injEq] at hr
            omega
      · simp only [List.cons.injEq] at hxx
        obtain ⟨hxeq, -⟩ := hxx
        have hxlt : x < line.length := by omega
        rcases hx with ⟨-, -, hr⟩ | ⟨-, -, hr⟩ <;>
          · rw [if_pos hxlt] at hr
            simp only [Prod.mk.injEq] at hr
            omega

/-- C5 witness: the characterization applied to "a:b|c|x", where the
second `|` sits at position 5 with only one byte after it, so
`type_index_end` is the buffer length 7, not 5. -/
theorem c5_type_index_end_witness :
    (⟨strBytes "a:b|c|x", 2, 4, 7, none, none⟩ : StatsdPDU).type_index_end =
      match memchr 124 ((strBytes "a:b|c|x").drop
          (⟨strBytes "a:b|c|x", 2, 4, 7, none, none⟩ : StatsdPDU).type_index) with
      | none => (strBytes "a:b|c|x").length
      | some i =>
        if (⟨strBytes "a:b|c|x", 2, 4, 7, none, none⟩ : StatsdPDU).type_index + i + 2 <
            (strBytes "a:b|c|x").length then
          (⟨strBytes "a:b|c|x", 2, 4, 7, none, none⟩ : StatsdPDU).type_index + i
        else (strBytes "a:b|c|x").length :=
  c5_type_index_end (strBytes "a:b|c|x")
    ⟨strBytes "a:b|c|x", 2, 4, 7, none, none⟩ (by rfl)

/-- C4 counterexample: parsing "foo.bar:3|c|@1.0|#tags" records the
sample-rate payload range (13, 16) — ending at 16, the tags marker's bar
— and the tags payload range (18, 22) — ending at the buffer length 22,
not at the sample-rate marker's bar position 11 = 13 - 2.  So it is not
true that, when both markers are present, each payload range ends at the
other marker's bar position. -/
theorem c4_counterexample :
    (StatsdPDU.new (strBytes "foo.bar:3|c|@1.0|#tags")).map
        (fun u => (u.sample_rate_index, u.tags_index)) =
      some (some (13, 16), some (18, 22)) ∧
    ¬((22 : Nat) = 13 - 2) := by
  constructor
  · rfl
  · decide

/-- C4 (amended): marker order independence: parsing
"foo.bar:3|c|@1.0|#tags" and "foo.bar:3|c|#tags|@1.0" both succeed with
identical name "foo.bar", value "3", type "c", tags "tags" and sample
rate "1.0"; in general, whenever both optional markers are present,
whichever marker was scanned first has its payload range end exactly at
the other marker's bar position (two bytes before the other payload's
start), and the marker scanned second has its range end at the buffer
length. -/
theorem c4_marker_order_independence :
    ((StatsdPDU.new (strBytes "foo.bar:3|c|@1.0|#tags")).map
        (fun u => (u.name, u.value, u.pdu_type, u.tags, u.sample_rate)) =
      some (strBytes "foo.bar", strBytes "3", strBytes "c",
        some (strBytes "tags"), some (strBytes "1.0")) ∧
     (StatsdPDU.new (strBytes "foo.bar:3|c|#tags|@1.0")).map
        (fun u => (u.name, u.value, u.pdu_type, u.tags, u.sample_rate)) =
      some (strBytes "foo.bar", strBytes "3", strBytes "c",
        some (strBytes "tags"), some (strBytes "1.0"))) ∧
    ∀ line pdu s1 e1 s2 e2, StatsdPDU.new line = some pdu →
      pdu.sample_rate_index = some (s1, e1) →
      pdu.tags_index = some (s2, e2) →
      (s1 < s2 ∧ e1 + 2 = s2 ∧ e2 = line.length) ∨
      (s2 < s1 ∧ e2 + 2 = s1 ∧ e1 = line.length) := by
  refine ⟨⟨by rfl, by rfl⟩, ?_⟩
  intro line pdu s1 e1 s2 e2 h hsr htg
  obtain ⟨p, hm, hund, htype, hv, hproc⟩ := new_parts line pdu h
  have hshape := processM_shape line (markerList line (line.length + 1) (p + 1))
    line.length _ (markerList_chain line _ _) hproc
  have hmem := markerList_mem line (line.length + 1) (p + 1)
  rcases hshape with ⟨-, hr⟩ | ⟨x, hms, hx⟩ | ⟨x, y, hms, hxy, hx⟩
  · simp only [Prod.mk.injEq] at hr
    rw [hr.2.1] at hsr
    exact absurd hsr (by simp)
  · rcases hx with ⟨-, hr⟩ | ⟨-, hr⟩ <;> simp only [Prod.mk.injEq] at hr
    · rw [hr.2.2] at htg
      exact absurd htg (by simp)
    · rw [hr.2.1] at hsr
      exact absurd hsr (by simp)
  · obtain ⟨hx1, hx2, hx3⟩ := hmem x (hms ▸ List.mem_cons_self x [y])
    obtain ⟨hy1, hy2, hy3⟩ :=
      hmem y (hms ▸ List.mem_cons_of_mem x (List.mem_cons_self y []))
    have hyx2 : x + 2 ≤ y := by
      rcases Nat.lt_or_ge y (x + 2) with hlt | hge
      · have hyeq : x + 1 = y := by omega
        rcases hx with ⟨hk, -⟩ | ⟨hk, -⟩ <;>
          · unfold kindOf at hk
            rw [hyeq] at hk
            rw [hk] at hy2
            omega
      · exact hge
    rcases hx with ⟨-, -, hr⟩ | ⟨-, -, hr⟩ <;> simp only [Prod.mk.injEq] at hr
    · rw [hr.2.1] at hsr
      rw [hr.2.2] at htg
      simp only [Option.some.injEq, Prod.mk.injEq] at hsr htg
      left
      omega
    · rw [hr.2.1] at hsr
      rw [hr.2.2] at htg
      simp only [Option.some.injEq, Prod.mk.injEq] at hsr htg
      right
      omega

/-- C4 witness: the amended general clause applied to the parse of
"foo.bar:3|c|@1.0|#tags": the sample-rate range (13, 16) ends at the
tags marker's bar 16 = 18 - 2 and the tags range (18, 22) ends at the
buffer length 22. -/
theorem c4_marker_order_independence_witness :
    (13 < 18 ∧ 16 + 2 = 18 ∧ 22 = (strBytes "foo.bar:3|c|@1.0|#tags").length) ∨
    (18 < 13 ∧ 22 + 2 = 13 ∧ 16 = (strBytes "foo.bar:3|c|@1.0|#tags").length) :=
  c4_marker_order_independence.2 (strBytes "foo.bar:3|c|@1.0|#tags")
    ⟨strBytes "foo.bar:3|c|@1.0|#tags", 8, 10, 11, some (13, 16), some (18, 22)⟩
    13 16 18 22 (by rfl) (by rfl) (by rfl)

/-- C1: `StatsdPDU.new` returns `none` exactly when the buffer contains
no `|`; or no `:` occurs before the first `|`; or, among the scanned
markers (the bars after `type_index` with at least two bytes following),
some kind byte is neither `@` (64) nor `#` (35), or a second `@` marker
or a second `#` marker is scanned after one was already recorded; every
other input yields a unit.  The concrete rejections from the
specification hold as well. -/
theorem c1_failure_characterization :
    (∀ line : List Nat, StatsdPDU.new line = none ↔
      memchr 124 line = none ∨
      (∃ p, memchr 124 line = some p ∧ 58 ∉ line.take (p + 1)) ∨
      (∃ p, memchr 124 line = some p ∧
        ((∃ x ∈ markerList line (line.length + 1) (p + 1),
            kindOf line x ≠ 64 ∧ kindOf line x ≠ 35) ∨
         2 ≤ atCount line (markerList line (line.length + 1) (p + 1)) ∨
         2 ≤ hashCount line (markerList line (line.length + 1) (p + 1))))) ∧
    StatsdPDU.new (strBytes "") = none ∧
    StatsdPDU.new (strBytes "novalueorsep") = none ∧
    StatsdPDU.new (strBytes "nosep|c") = none ∧
    StatsdPDU.new (strBytes "a:1|c|@1|@2") = none ∧
    StatsdPDU.new (strBytes "a:1|c|#t|#u") = none := by
  refine ⟨?_, by rfl, by rfl, by rfl, by rfl, by rfl⟩
  intro line
  have hbit : (if (none : Option (Nat × Nat)).isSome then 1 else 0) = 0 := rfl
  cases hm : memchr 124 line with
  | none =>
    simp only [StatsdPDU.new, hm]
    constructor
    · intro _
      exact Or.inl trivial
    · intro _
      trivial
  | some p =>
    cases hv : valueGo line (p + 1) (p + 2) 0 with
    | none =>
      have hcol : memchr 58 (line.take (p + 1)) = none :=
        (valueGo_none_iff line (p + 1) (p + 2) (by omega)).mp hv
      simp only [StatsdPDU.new, hm, hv]
      constructor
      · intro _
        exact Or.inr (Or.inl ⟨p, rfl, (memchr_eq_none_iff _ _).mp hcol⟩)
      · intro _
        trivial
    | some v =>
      have hvnn : ¬(58 ∉ line.take (p + 1)) := by
        intro hno
        have hvn : valueGo line (p + 1) (p + 2) 0 = none :=
          (valueGo_none_iff line (p + 1) (p + 2) (by omega)).mpr
            ((memchr_eq_none_iff _ _).mpr hno)
        rw [hv] at hvn
        exact absurd hvn (by simp)
      cases hg : markerGo line (line.length + 1) (p + 1) line.length none none with
      | none =>
        have hgp := hg
        rw [markerGo_eq_processM line _ _ _ _ _ (by omega)] at hgp
        have hfail := (processM_none_iff line _ line.length none none).mp hgp
        simp only [hbit, Nat.add_zero] at hfail
        simp only [StatsdPDU.new, hm, hv, hg]
        constructor
        · intro _
          exact Or.inr (Or.inr ⟨p, rfl, hfail⟩)
        · intro _
          trivial
      | some r =>
        obtain ⟨tie, sri, tgi⟩ := r
        have hgp := hg
        rw [markerGo_eq_processM line _ _ _ _ _ (by omega)] at hgp
        simp only [StatsdPDU.new, hm, hv, hg]
        constructor
        · intro habs
          exact absurd habs (by simp)
        · rintro (hno | ⟨p2, hp2, hno⟩ | ⟨p2, hp2, hfail⟩)
          · exact absurd hno (by simp)
          · have hpp := Option.some.inj hp2
            subst hpp
            exact absurd hno hvnn
          · have hpp := Option.some.inj hp2
            subst hpp
            have hcontra : processM line (markerList line (line.length + 1) (p + 1))
                line.length none none = none := by
              rw [processM_none_iff]
              simp only [hbit, Nat.add_zero]
              exact hfail
            rw [hcontra] at hgp
            exact absurd hgp (by simp)

/-- C9: the parser rejects neither an empty type field nor a zero-length
value: for all pipe-free `name` and `value` bytes, parsing
`name ++ ":" ++ value ++ "|"` succeeds with an empty type field
(`type_index_end = type_index`), and for all pipe-free `name` and `type`
bytes, parsing `name ++ ":|" ++ type` succeeds with an empty value.
(The name, value and type fields of the wire format are `|`-free by
definition; a `|` inside them would move the field boundaries.) -/
theorem c9_empty_type_and_value_accepted :
    (∀ nm v : List Nat, 124 ∉ nm → 124 ∉ v →
      ∃ pdu, StatsdPDU.new (nm ++ 58 :: (v ++ [124])) = some pdu ∧
        pdu.pdu_type = [] ∧ pdu.type_index_end = pdu.type_index) ∧
    (∀ nm t : List Nat, 124 ∉ nm → 124 ∉ t →
      ∃ pdu, StatsdPDU.new (nm ++ 58 :: 124 :: t) = some pdu ∧
        pdu.value = []) := by
  constructor
  · intro nm v hnm hv
    have hm : memchr 124 (nm ++ 58 :: (v ++ [124])) =
        some (v.length + 1 + nm.length) := by
      rw [memchr_append_of_not_mem 124 nm _ hnm]
      have h1 : memchr 124 (58 :: (v ++ [124])) = some (v.length + 1) := by
        have h2 : memchr 124 (v ++ [124]) = some v.length := by
          rw [memchr_append_of_not_mem 124 v _ hv]
          simp [memchr]
        simp [memchr, h2]
      rw [h1]
      rfl
    have hlen : (nm ++ 58 :: (v ++ [124])).length = nm.length + v.length + 2 := by
      simp
      omega
    have htake : (nm ++ 58 :: (v ++ [124])).take (v.length + 1 + nm.length + 1) =
        nm ++ 58 :: (v ++ [124]) := by
      apply List.take_of_length_le
      omega
    have hvne : valueGo (nm ++ 58 :: (v ++ [124])) (v.length + 1 + nm.length + 1)
        (v.length + 1 + nm.length + 2) 0 ≠ none := by
      intro hno0
      rw [valueGo_none_iff (nm ++ 58 :: (v ++ [124])) (v.length + 1 + nm.length + 1)
        (v.length + 1 + nm.length + 2) (by omega), memchr_eq_none_iff, htake] at hno0
      simp at hno0
    obtain ⟨v0, hv0⟩ := Option.ne_none_iff_exists'.mp hvne
    have hdrop : (nm ++ 58 :: (v ++ [124])).drop (v.length + 1 + nm.length + 1) = [] := by
      apply List.drop_eq_nil_of_le
      omega
    have hmg : markerGo (nm ++ 58 :: (v ++ [124]))
        ((nm ++ 58 :: (v ++ [124])).length + 1) (v.length + 1 + nm.length + 1)
        (nm ++ 58 :: (v ++ [124])).length none none =
        some ((nm ++ 58 :: (v ++ [124])).length, none, none) := by
      simp [markerGo, hdrop, memchr]
    refine ⟨⟨nm ++ 58 :: (v ++ [124]), v0, v.length + 1 + nm.length + 1,
      (nm ++ 58 :: (v ++ [124])).length, none, none⟩, ?_, ?_, ?_⟩
    · simp only [StatsdPDU.new, hm, hv0, hmg]
    · show subSlice (nm ++ 58 :: (v ++ [124])) (v.length + 1 + nm.length + 1) _ = []
      unfold subSlice
      rw [hdrop]
      simp
    · show (nm ++ 58 :: (v ++ [124])).length = v.length + 1 + nm.length + 1
      omega
  · intro nm t hnm ht
    have hm : memchr 124 (nm ++ 58 :: 124 :: t) = some (1 + nm.length) := by
      rw [memchr_append_of_not_mem 124 nm _ hnm]
      rfl
    have hlen : (nm ++ 58 :: 124 :: t).length = nm.length + t.length + 2 := by
      simp
      omega
    have hgetc : (nm ++ 58 :: 124 :: t).getD nm.length 0 = 58 := by
      rw [getD_append_ge _ _ _ (by omega)]
      simp
    have hgetb : (nm ++ 58 :: 124 :: t).getD (nm.length + 1) 0 = 124 := by
      rw [getD_append_ge _ _ _ (by omega)]
      simp [show nm.length + 1 - nm.length = 1 by omega]
    have hvne : valueGo (nm ++ 58 :: 124 :: t) (1 + nm.length + 1)
        (1 + nm.length + 2) 0 ≠ none := by
      intro hno0
      rw [valueGo_none_iff (nm ++ 58 :: 124 :: t) (1 + nm.length + 1)
        (1 + nm.length + 2) (by omega), memchr_eq_none_iff] at hno0
      exact hno0 (mem_take_of_getD _ nm.length _ 58 (by omega) (by omega) hgetc)
    obtain ⟨v0, hv0⟩ := Option.ne_none_iff_exists'.mp hvne
    obtain ⟨hnocol, hdisj⟩ :=
      valueGo_some_spec (nm ++ 58 :: 124 :: t) (1 + nm.length + 1)
        (1 + nm.length + 2) 0 v0 (by omega) hv0
    have hveq : v0 = nm.length + 1 := by
      rcases hdisj with ⟨-, habs⟩ | ⟨h1, h2, h3⟩
      · omega
      rcases Nat.lt_or_ge v0 (nm.length + 1) with hlt | hge
      · exact absurd hgetc (hnocol nm.length (by omega) (by omega))
      rcases Nat.lt_or_ge (nm.length + 1) v0 with hlt2 | hge2
      · have : v0 = nm.length + 2 := by omega
        rw [this, show nm.length + 2 - 1 = nm.length + 1 by omega, hgetb] at h3
        omega
      · omega
    have hdrop : (nm ++ 58 :: 124 :: t).drop (1 + nm.length + 1) = t := by
      rw [show 1 + nm.length + 1 = nm.length + 2 by omega]
      exact drop_append_len nm (58 :: 124 :: t) 2
    have hmg : markerGo (nm ++ 58 :: 124 :: t)
        ((nm ++ 58 :: 124 :: t).length + 1) (1 + nm.length + 1)
        (nm ++ 58 :: 124 :: t).length none none =
        some ((nm ++ 58 :: 124 :: t).length, none, none) := by
      have hmt : memchr 124 t = none := (memchr_eq_none_iff _ _).mpr ht
      simp [markerGo, hdrop, hmt]
    refine ⟨⟨nm ++ 58 :: 124 :: t, v0, 1 + nm.length + 1,
      (nm ++ 58 :: 124 :: t).length, none, none⟩, ?_, ?_⟩
    · simp only [StatsdPDU.new, hm, hv0, hmg]
    · show subSlice (nm ++ 58 :: 124 :: t) v0 (1 + nm.length + 1 - 1) = []
      unfold subSlice
      rw [show 1 + nm.length + 1 - 1 - v0 = 0 by omega]
      simp

/-- C9 witness: the theorem applied to name "n" with value "3" (empty
type field, input "n:3|") and to name "n" with type "c" (empty value,
input "n:|c"): both inputs are accepted. -/
theorem c9_empty_type_and_value_accepted_witness :
    (StatsdPDU.new (strBytes "n:3|")).isSome = true ∧
    (StatsdPDU.new (strBytes "n:|c")).isSome = true := by
  obtain ⟨pdu1, h1, -, -⟩ := c9_empty_type_and_value_accepted.1
    (strBytes "n") (strBytes "3") (by decide) (by decide)
  obtain ⟨pdu2, h2, -⟩ := c9_empty_type_and_value_accepted.2
    (strBytes "n") (strBytes "c") (by decide) (by decide)
  constructor
  · rw [show strBytes "n:3|" = strBytes "n" ++ 58 :: (strBytes "3" ++ [124]) from rfl, h1]
    rfl
  · rw [show strBytes "n:|c" = strBytes "n" ++ 58 :: 124 :: strBytes "c" from rfl, h2]
    rfl

/-- C10 counterexample: the input ":a:1|c" has first byte `:` and
contains a `|` after it; it parses successfully, but its name is ":a"
(the last colon before the bar is at position 2), not the empty byte
string — refuting the claim that every such input parses with an empty
name.  (Inputs such as ":1|c|@1|@2" also refute the success part: they
are rejected for a duplicate marker.) -/
theorem c10_counterexample :
    (strBytes ":a:1|c").getD 0 0 = 58 ∧
    124 ∈ (strBytes ":a:1|c").drop 1 ∧
    (StatsdPDU.new (strBytes ":a:1|c")).isSome = true ∧
    (StatsdPDU.new (strBytes ":a:1|c")).map StatsdPDU.name ≠ some [] ∧
    StatsdPDU.new (strBytes ":1|c|@1|@2") = none := by
  refine ⟨by rfl, by decide, by rfl, ?_, by rfl⟩
  intro hc
  rw [show (StatsdPDU.new (strBytes ":a:1|c")).map StatsdPDU.name =
    some (strBytes ":a") from rfl] at hc
  exact absurd (Option.some.inj hc) (by decide)

/-- C10 (amended): the parser does not require a non-empty name: for
every accepted input whose first byte is `:` and that contains no other
`:` before its first `|`, the parsed name is the empty byte string; in
particular parse(":1|c") succeeds with name "", value "1" and type "c".
(The original claim fails in two ways: such inputs can still be rejected
for marker errors, and a later colon before the bar yields a non-empty
name, as on ":a:1|c".) -/
theorem c10_empty_name_allowed :
    (∀ line pdu p, StatsdPDU.new line = some pdu →
      memchr 124 line = some p →
      line.getD 0 0 = 58 →
      (∀ j, 0 < j → j < p → line.getD j 0 ≠ 58) →
      pdu.name = []) ∧
    ∃ pdu, StatsdPDU.new (strBytes ":1|c") = some pdu ∧
      pdu.name = [] ∧ pdu.value = strBytes "1" ∧ pdu.pdu_type = strBytes "c" := by
  constructor
  · intro line pdu p h hm h0 hno
    obtain ⟨p2, hm2, hund, htype, -, -⟩ := new_parts line pdu h
    obtain ⟨-, hv0, hvlt, -, -, hvcol, -, -, -, -⟩ := new_facts line pdu h
    rw [hm] at hm2
    have hpp := Option.some.inj hm2
    have hv1 : pdu.value_index = 1 := by
      by_contra hne
      have hgt : 0 < pdu.value_index - 1 := by omega
      exact hno (pdu.value_index - 1) hgt (by omega) hvcol
    show subSlice pdu.underlying 0 (pdu.value_index - 1) = []
    rw [hv1]
    rfl
  · exact ⟨⟨strBytes ":1|c", 1, 3, 4, none, none⟩, by rfl, by rfl, by rfl, by rfl⟩

/-- C10 witness: the amended statement applied to the accepted input
":1|c" (first byte `:`, single colon before the bar at position 2):
its parsed name is empty. -/
theorem c10_empty_name_allowed_witness :
    (⟨strBytes ":1|c", 1, 3, 4, none, none⟩ : StatsdPDU).name = [] :=
  c10_empty_name_allowed.1 (strBytes ":1|c")
    ⟨strBytes ":1|c", 1, 3, 4, none, none⟩ 2 (by rfl) (by rfl) (by rfl)
    (by
      intro j h1 h2
      have hj : j = 1 := by omega
      subst hj
      decide)
